import Mathlib

set_option maxRecDepth 8000

-- ===========================================================================
-- Shallow embedding of src/bucket.rs (crate `hashing`).
--
-- Machine integers are modelled as `Nat`, with an explicit `% 2 ^ 32` wherever
-- u32 arithmetic can wrap.  The u128 result of `phi` is modelled as a plain
-- `Nat`: the emitted encoding occupies at most 2*32 + 1 + 32 = 97 bits, so the
-- u128 shifts in the source never wrap (theorem `phi_lt_two_pow` below).
-- Panicking / diverging code paths are modelled with `Option` / `Except`.
-- ===========================================================================

-- `32 - x.leading_zeros()` for a `u32` value `x`: the number of effective bits
-- of `x` (0 for `x = 0`).  The recursion is given fuel 32, the u32 bit width;
-- for `x < 2 ^ 32` the fuel is never exhausted (`bitsLenAux_fuel_irrel`).
def bitsLenAux : Nat → Nat → Nat
  | 0, _ => 0
  | fuel + 1, x => if x = 0 then 0 else bitsLenAux fuel (x / 2) + 1

def bitsLen (x : Nat) : Nat := bitsLenAux 32 x

-- The struct `ElasticHashing { size, data, bucket_offsets }`.  Slots are i32
-- (modelled as `Int`); the constructor fills them with 0.
structure ElasticHashing where
  size : Nat
  data : List Int
  bucket_offsets : List Nat

-- fn phi(a: u32, b: u32) -> u128  (lines 109-135 of bucket.rs).
-- For each effective bit of `b`, most significant first, emit a `1` marker and
-- then the bit; emit one `0` separator; emit the effective bits of `a`.
def ElasticHashing.phi (a b : Nat) : Nat :=
  let b_bits := bitsLen b
  let a_bits := bitsLen a
  let r1 :=
    ((List.range b_bits).reverse).foldl
      (fun result i => (((result <<< 1) ||| 1) <<< 1) ||| ((b >>> i) &&& 1)) 0
  let r2 := (r1 <<< 1) ||| 0
  ((List.range a_bits).reverse).foldl
    (fun result i => (result <<< 1) ||| ((a >>> i) &&& 1)) r2

-- ---------------------------------------------------------------------------
-- The murmur3 crate's murmur3_32 (MurmurHash3 x86_32), reading from an
-- `std::io::Cursor`.  Bytes are `Nat < 256`; all u32 state is kept `< 2 ^ 32`.
-- ---------------------------------------------------------------------------

def MURMUR_SEED_1 : Nat := 0x9747b28c
def MURMUR_SEED_2 : Nat := 0x85ebca6b

def wrap32 (x : Nat) : Nat := x % 2 ^ 32

-- u32::rotate_left for x < 2 ^ 32 and 0 < r < 32.
def rotateLeft32 (x r : Nat) : Nat := wrap32 (x <<< r) ||| (x >>> (32 - r))

-- k.wrapping_mul(C1).rotate_left(15).wrapping_mul(C2)
def murmurMixK (k : Nat) : Nat :=
  wrap32 (rotateLeft32 (wrap32 (k * 0xcc9e2d51)) 15 * 0x1b873593)

-- One full 4-byte block: h ^= mix(k); h = h.rotate_left(13); h = h*5 + N.
def murmurStep (h k : Nat) : Nat :=
  wrap32 (rotateLeft32 (h ^^^ murmurMixK k) 13 * 5 + 0xe6546b64)

-- Finalization: h ^= len; fmix32.
def murmurFinish (h processed : Nat) : Nat :=
  let h1 := h ^^^ processed
  let h2 := h1 ^^^ (h1 >>> 16)
  let h3 := wrap32 (h2 * 0x85ebca6b)
  let h4 := h3 ^^^ (h3 >>> 13)
  let h5 := wrap32 (h4 * 0xc2b2ae35)
  h5 ^^^ (h5 >>> 16)

-- Little-endian value of up to 4 bytes (u32::from_le_bytes / the tail XOR).
def leValue : List Nat → Nat
  | [] => 0
  | b :: rest => b + 256 * leValue rest

-- The streaming loop of murmur3_32: consume full 4-byte blocks, then the
-- 1-3 byte tail, then finalize with the total number of bytes processed.
def murmur3Body (h processed : Nat) : List Nat → Nat
  | b0 :: b1 :: b2 :: b3 :: rest =>
      murmur3Body (murmurStep h (leValue [b0, b1, b2, b3])) (processed + 4) rest
  | [] => murmurFinish h processed
  | tail => murmurFinish (h ^^^ murmurMixK (leValue tail)) (processed + tail.length)

def murmur3_32 (bytes : List Nat) (seed : Nat) : Nat := murmur3Body seed 0 bytes

-- std::io::Cursor over a byte buffer.  `murmur3_32` reads its source to EOF,
-- so a call consumes everything from the current position and leaves the
-- cursor at the end of the buffer.
structure Cursor where
  data : List Nat
  pos : Nat

def murmur3_32_fromCursor (c : Cursor) (seed : Nat) : Nat × Cursor :=
  let remaining := c.data.drop c.pos
  (murmur3_32 remaining seed, ⟨c.data, c.pos + remaining.length⟩)

-- i32::to_le_bytes of the key, reading `x` as the key's 32-bit pattern
-- (two's-complement i32 reinterpreted as u32, so x < 2 ^ 32).
def i32ToLeBytes (x : Nat) : List Nat :=
  [x % 256, x / 256 % 256, x / 65536 % 256, x / 16777216 % 256]

-- fn hash(x: i32) -> u128 (lines 101-107): both murmur3_32 calls read from the
-- SAME cursor.  `hashPair` is the pair (h1, h2) that the source computes.
def ElasticHashing.hashPair (x : Nat) : Nat × Nat :=
  let bytes := i32ToLeBytes x
  let cursor0 : Cursor := ⟨bytes, 0⟩
  let r1 := murmur3_32_fromCursor cursor0 MURMUR_SEED_1
  let r2 := murmur3_32_fromCursor r1.2 MURMUR_SEED_2
  (r1.1, r2.1)

def ElasticHashing.hash (x : Nat) : Nat :=
  ElasticHashing.phi (ElasticHashing.hashPair x).1 (ElasticHashing.hashPair x).2

-- ---------------------------------------------------------------------------
-- calc_bucket_size (lines 29-62) and the constructor.
-- ---------------------------------------------------------------------------

-- The body of `while remaining_size > 0`.  Each iteration grows `data` by
-- `current_size` zeros, pushes the new data length onto `bucket_offsets`,
-- executes `remaining_size -= current_size` and `current_size =
-- (current_size + 1) / 2`.  `none` models abnormal termination: the usize
-- subtraction underflowing (a panic in debug builds, wrap-around divergence in
-- release builds) or the loop never finishing.  The fuel argument is
-- initialised to `size`; since `current_size >= 1` throughout every run
-- started by `calc_bucket_size`, `remaining_size` strictly decreases and the
-- fuel is never exhausted before the loop exits or underflows.
def calcLoop : Nat → Nat → Nat → List Int → List Nat →
    Option (List Int × List Nat)
  | _, 0, _, data, offsets => some (data, offsets)
  | 0, _ + 1, _, _, _ => none
  | fuel + 1, r + 1, c, data, offsets =>
      if c ≤ r + 1 then
        calcLoop fuel (r + 1 - c) ((c + 1) / 2)
          (data ++ List.replicate c 0) (offsets ++ [data.length + c])
      else none

-- fn calc_bucket_size(&mut self, size: usize): current_size = (size + 1) / 2,
-- remaining_size = size, bucket_offsets = vec![0], data = vec![]; run the
-- loop; finally pop the last offset (it points at the end of the data).
def ElasticHashing.calc_bucket_size (size : Nat) :
    Option (List Int × List Nat) :=
  (calcLoop size size ((size + 1) / 2) [] [0]).map fun p => (p.1, p.2.dropLast)

-- How construction can fail: the explicit `panic!("Size must be greater than
-- 0")` for capacity 0, or the arithmetic underflow inside calc_bucket_size.
inductive ConstructError where
  | configError
  | subtractionUnderflow
deriving DecidableEq

-- fn new(size: usize) -> Self (lines 15-27).
def ElasticHashing.new (size : Nat) : Except ConstructError ElasticHashing :=
  if size = 0 then Except.error ConstructError.configError
  else
    match ElasticHashing.calc_bucket_size size with
    | some (d, o) => Except.ok ⟨size, d, o⟩
    | none => Except.error ConstructError.subtractionUnderflow

-- Rust slice expression &data[start..end]: panics (`none`) unless
-- start <= end <= data.len().
def listSlice (data : List Int) (start stop : Nat) : Option (List Int) :=
  if start ≤ stop ∧ stop ≤ data.length then some ((data.take stop).drop start)
  else none

-- pub fn get_bucket(&self, bucket_idx: usize) -> &[i32] (lines 65-78).
def ElasticHashing.get_bucket (t : ElasticHashing) (bucket_idx : Nat) :
    Option (List Int) :=
  if t.bucket_offsets.length ≤ bucket_idx then some []
  else
    (t.bucket_offsets[bucket_idx]?).bind fun start =>
      (if bucket_idx + 1 < t.bucket_offsets.length then
          t.bucket_offsets[bucket_idx + 1]?
        else some t.data.length).bind fun stop =>
        listSlice t.data start stop

-- pub fn get_bucket_mut(&mut self, bucket_idx: usize) -> &mut [i32]
-- (lines 81-94): computes the same region; mutability is not modelled.
def ElasticHashing.get_bucket_mut (t : ElasticHashing) (bucket_idx : Nat) :
    Option (List Int) :=
  if t.bucket_offsets.length ≤ bucket_idx then some []
  else
    (t.bucket_offsets[bucket_idx]?).bind fun start =>
      (if bucket_idx + 1 < t.bucket_offsets.length then
          t.bucket_offsets[bucket_idx + 1]?
        else some t.data.length).bind fun stop =>
        listSlice t.data start stop

-- pub fn bucket_count(&self) -> usize.
def ElasticHashing.bucket_count (t : ElasticHashing) : Nat :=
  t.bucket_offsets.length

-- The sequence of bucket capacities, as observed through the accessors
-- (the lengths the source itself prints and tests).
def ElasticHashing.bucketCaps (t : ElasticHashing) : List Nat :=
  (List.range t.bucket_count).map fun i => ((t.get_bucket i).getD []).length

-- ---------------------------------------------------------------------------
-- Specification-side helper definitions used by the proofs.
-- ---------------------------------------------------------------------------

-- The marker/bit interleaving that phi's first loop accumulates, peeled from
-- the most significant of the `n` low bits of `b` downwards.
def benc (b : Nat) : Nat → Nat
  | 0 => 0
  | n + 1 => (2 + ((b >>> n) &&& 1)) * 4 ^ n + benc b n

-- Closed form of the interleaving over all effective bits of `b`.
def phiB (b : Nat) : Nat := benc b (bitsLen b)

-- The successive bucket sizes allocated by calcLoop (the successive values of
-- `current_size`), with the same fuel, stopping and underflow behaviour.
def sizesLoop : Nat → Nat → Nat → Option (List Nat)
  | _, 0, _ => some []
  | 0, _ + 1, _ => none
  | fuel + 1, r + 1, c =>
      if c ≤ r + 1 then (sizesLoop fuel (r + 1 - c) ((c + 1) / 2)).map (c :: ·)
      else none

-- The zero-filled backing store produced by the successive resize calls.
def zerosOf : List Nat → List Int
  | [] => []
  | c :: rest => List.replicate c 0 ++ zerosOf rest

-- The offsets pushed by the loop (each bucket's end position), given the data
-- length at loop entry.
def offsetsFrom (base : Nat) : List Nat → List Nat
  | [] => []
  | c :: rest => (base + c) :: offsetsFrom (base + c) rest

-- The bucket start offsets (what bucket_offsets holds after the final pop).
def partials (base : Nat) : List Nat → List Nat
  | [] => []
  | c :: rest => base :: partials (base + c) rest

-- ===========================================================================
-- Theorems.
-- ===========================================================================

-- ---------------------------------------------------------------------------
-- C1 / C2: the partitioning loop is broken at capacity 9 (and 25, ...).
-- current_size halves independently of remaining_size, the partial sums of the
-- halving chain 5, 3, 2, ... skip 9, and `remaining_size -= current_size`
-- underflows with remaining_size = 1, current_size = 2.
-- ---------------------------------------------------------------------------

/-- C1. The claim "for every capacity N >= 1 construction succeeds and the
bucket capacities sum to N" fails on the code: at capacity 9 the constructor
hits the usize subtraction underflow and never returns a table. -/
theorem claim1_capacity_nine_fails :
    ElasticHashing.new 9 = Except.error ConstructError.subtractionUnderflow := rfl

/-- C2. The claim "the bucket-partitioning loop always terminates with the
subtraction never underflowing" fails on the code: at capacity 9 the loop
reaches remaining = 1, current = 2 and the subtraction underflows, so the loop
does not terminate normally. -/
theorem claim2_loop_underflows_at_nine :
    ElasticHashing.calc_bucket_size 9 = none := rfl

/-- C4. The pairing function satisfies the five worked examples exactly. -/
theorem claim4_phi_worked_examples :
    ElasticHashing.phi 1 1 = 13 ∧
    ElasticHashing.phi 2 3 = 122 ∧
    ElasticHashing.phi 3 5 = 475 ∧
    ElasticHashing.phi 15 7 = 0b11111101111 ∧
    ElasticHashing.phi 1024 1023 = 0b11111111111111111111010000000000 := by
  refine ⟨rfl, rfl, rfl, rfl, rfl⟩

/-- C5 (counterexample). phi is NOT injective on all 32-bit pairs: when the
second argument is 0 no marker bits and no separator survive, so
phi(13, 0) = 13 = phi(1, 1) although (13, 0) differs from (1, 1). -/
theorem claim5_phi_not_injective :
    ¬ (∀ a1 b1 a2 b2 : Nat, a1 < 2 ^ 32 → b1 < 2 ^ 32 → a2 < 2 ^ 32 →
        b2 < 2 ^ 32 → ElasticHashing.phi a1 b1 = ElasticHashing.phi a2 b2 →
        a1 = a2 ∧ b1 = b2) := by
  intro h
  have h13 := h 13 0 1 1 (by decide) (by decide) (by decide) (by decide) rfl
  exact absurd h13.1 (by decide)

/-- C3. The claim "h2 equals murmur3_32 of the same 4 key bytes with the second
seed, varying with the key" fails on the code: both murmur3_32 calls read the
same Cursor, the first consumes all 4 bytes, so h2 is murmur3_32 of the EMPTY
byte string with the second seed — the same constant for every key — while h1
does hash the key's 4 little-endian bytes as claimed. -/
theorem claim3_second_hash_ignores_key :
    (ElasticHashing.hashPair 0).1 = murmur3_32 (i32ToLeBytes 0) MURMUR_SEED_1 ∧
    (ElasticHashing.hashPair 0).2 = murmur3_32 [] MURMUR_SEED_2 ∧
    (ElasticHashing.hashPair 1).2 = (ElasticHashing.hashPair 0).2 ∧
    (ElasticHashing.hashPair 0).2 ≠ murmur3_32 (i32ToLeBytes 0) MURMUR_SEED_2 := by
  refine ⟨rfl, rfl, rfl, by decide⟩

/-- C8. Construction with capacity 0 fails with the (fatal) configuration
error, and no capacity N >= 1 produces that error. -/
theorem claim8_zero_capacity_config_error :
    ElasticHashing.new 0 = Except.error ConstructError.configError ∧
    ∀ N : Nat, 1 ≤ N →
      ElasticHashing.new N ≠ Except.error ConstructError.configError := by
  refine ⟨rfl, fun N hN => ?_⟩
  unfold ElasticHashing.new
  rw [if_neg (by omega)]
  split <;> simp

/-- C8 witness: capacity 10 does not raise the configuration error. -/
theorem claim8_config_witness :
    ElasticHashing.new 10 ≠ Except.error ConstructError.configError :=
  claim8_zero_capacity_config_error.2 10 (by decide)

-- ---------------------------------------------------------------------------
-- Arithmetic facts about bitsLen, the two phi loops, and the closed form.
-- ---------------------------------------------------------------------------

theorem bitsLenAux_zero : ∀ fuel, bitsLenAux fuel 0 = 0
  | 0 => rfl
  | _ + 1 => by simp [bitsLenAux]

theorem bitsLenAux_succ (fuel x : Nat) (hx : x ≠ 0) :
    bitsLenAux (fuel + 1) x = bitsLenAux fuel (x / 2) + 1 := by
  simp [bitsLenAux, hx]

theorem bitsLenAux_le : ∀ fuel x, bitsLenAux fuel x ≤ fuel := by
  intro fuel
  induction fuel with
  | zero => intro x; simp [bitsLenAux]
  | succ fuel ih =>
    intro x
    rcases Nat.eq_zero_or_pos x with hx | hx
    · subst hx; rw [bitsLenAux_zero]; omega
    · rw [bitsLenAux_succ fuel x (by omega)]
      have := ih (x / 2)
      omega

theorem bitsLenAux_fuel_irrel :
    ∀ f g x, x < 2 ^ f → x < 2 ^ g → bitsLenAux f x = bitsLenAux g x := by
  intro f
  induction f with
  | zero =>
    intro g x hf _
    have hx : x = 0 := by simpa using hf
    subst hx
    rw [bitsLenAux_zero, bitsLenAux_zero]
  | succ f ih =>
    intro g x hf hg
    rcases Nat.eq_zero_or_pos x with hx | hx
    · subst hx; rw [bitsLenAux_zero, bitsLenAux_zero]
    · cases g with
      | zero =>
        exfalso
        have : x = 0 := by simpa using hg
        omega
      | succ g =>
        rw [bitsLenAux_succ f x (by omega), bitsLenAux_succ g x (by omega)]
        have hf2 : x / 2 < 2 ^ f := by
          have := Nat.pow_succ 2 f
          omega
        have hg2 : x / 2 < 2 ^ g := by
          have := Nat.pow_succ 2 g
          omega
        rw [ih g (x / 2) hf2 hg2]

theorem bitsLen_succ {x : Nat} (hx : x ≠ 0) (h32 : x < 2 ^ 32) :
    bitsLen x = bitsLen (x / 2) + 1 := by
  have hpow : (2 : Nat) ^ 32 = 2 ^ 31 * 2 := Nat.pow_succ 2 31
  have h31 : x / 2 < 2 ^ 31 := by omega
  have h32' : x / 2 < 2 ^ 32 := by omega
  have h1 : bitsLen x = bitsLenAux 31 (x / 2) + 1 := bitsLenAux_succ 31 x hx
  have h2 : bitsLenAux 31 (x / 2) = bitsLen (x / 2) :=
    bitsLenAux_fuel_irrel 31 32 (x / 2) h31 h32'
  rw [h1, h2]

theorem bitsLen_pos {x : Nat} (hx : x ≠ 0) (h32 : x < 2 ^ 32) : 1 ≤ bitsLen x := by
  rw [bitsLen_succ hx h32]
  omega

theorem lt_two_pow_bitsLenAux : ∀ f x, x < 2 ^ f → x < 2 ^ bitsLenAux f x := by
  intro f
  induction f with
  | zero => intro x h; simpa [bitsLenAux] using h
  | succ f ih =>
    intro x h
    rcases Nat.eq_zero_or_pos x with hx | hx
    · subst hx; rw [bitsLenAux_zero]; omega
    · rw [bitsLenAux_succ f x (by omega)]
      have hdiv : x / 2 < 2 ^ f := by
        have := Nat.pow_succ 2 f
        omega
      have h1 := ih (x / 2) hdiv
      have h2 : (2 : Nat) ^ (bitsLenAux f (x / 2) + 1) = 2 ^ bitsLenAux f (x / 2) * 2 :=
        Nat.pow_succ 2 _
      omega

theorem lt_two_pow_bitsLen {x : Nat} (h : x < 2 ^ 32) : x < 2 ^ bitsLen x :=
  lt_two_pow_bitsLenAux 32 x h

-- `(r << 1) | b` is `2 * r + b` when `b` is a single bit.
theorem shiftLeft_one_or_bit (r b : Nat) (hb : b < 2) :
    (r <<< 1) ||| b = 2 * r + b := by
  have h := Nat.mul_add_lt_is_or (show b < 2 ^ 1 by simpa using hb) r
  rw [Nat.shiftLeft_eq, show r * 2 ^ 1 = 2 ^ 1 * r by ring, ← h]

theorem foldA_eq (a : Nat) : ∀ n acc,
    ((List.range n).reverse).foldl
        (fun result i => (result <<< 1) ||| ((a >>> i) &&& 1)) acc
      = acc * 2 ^ n + a % 2 ^ n := by
  intro n
  induction n with
  | zero => intro acc; simp [Nat.mod_one]
  | succ n ih =>
    intro acc
    rw [List.range_succ, List.reverse_append]
    simp only [List.reverse_cons, List.reverse_nil, List.nil_append,
      List.singleton_append, List.foldl_cons]
    rw [ih]
    have hbit : (a >>> n) &&& 1 = a / 2 ^ n % 2 := by
      rw [Nat.and_one_is_mod, Nat.shiftRight_eq_div_pow]
    rw [hbit, shiftLeft_one_or_bit acc _ (Nat.mod_lt _ (by norm_num))]
    have hmod : a % 2 ^ (n + 1) = a % 2 ^ n + 2 ^ n * (a / 2 ^ n % 2) := by
      rw [Nat.pow_succ]
      exact Nat.mod_mul
    rw [hmod, Nat.pow_succ]
    ring

theorem foldB_eq (b : Nat) : ∀ n acc,
    ((List.range n).reverse).foldl
        (fun result i => (((result <<< 1) ||| 1) <<< 1) ||| ((b >>> i) &&& 1)) acc
      = acc * 4 ^ n + benc b n := by
  intro n
  induction n with
  | zero => intro acc; simp [benc]
  | succ n ih =>
    intro acc
    rw [List.range_succ, List.reverse_append]
    simp only [List.reverse_cons, List.reverse_nil, List.nil_append,
      List.singleton_append, List.foldl_cons]
    rw [ih]
    have hbit : (b >>> n) &&& 1 = b / 2 ^ n % 2 := by
      rw [Nat.and_one_is_mod, Nat.shiftRight_eq_div_pow]
    rw [shiftLeft_one_or_bit acc 1 (by norm_num), hbit,
      shiftLeft_one_or_bit (2 * acc + 1) _ (Nat.mod_lt _ (by norm_num))]
    rw [show benc b (n + 1) = (2 + ((b >>> n) &&& 1)) * 4 ^ n + benc b n from rfl,
      hbit, Nat.pow_succ]
    ring

theorem benc_succ_eq : ∀ n b, benc b (n + 1) = 4 * benc (b / 2) n + (2 + b % 2) := by
  intro n
  induction n with
  | zero =>
    intro b
    rw [show benc b 1 = (2 + ((b >>> 0) &&& 1)) * 4 ^ 0 + benc b 0 from rfl]
    rw [show benc b 0 = 0 from rfl, show benc (b / 2) 0 = 0 from rfl]
    rw [Nat.and_one_is_mod, Nat.shiftRight_eq_div_pow]
    simp
  | succ n ih =>
    intro b
    rw [show benc b (n + 1 + 1) = (2 + ((b >>> (n + 1)) &&& 1)) * 4 ^ (n + 1) + benc b (n + 1) from rfl]
    rw [ih b]
    have hb : (b >>> (n + 1)) &&& 1 = ((b / 2) >>> n) &&& 1 := by
      rw [Nat.and_one_is_mod, Nat.and_one_is_mod, Nat.shiftRight_eq_div_pow,
        Nat.shiftRight_eq_div_pow, Nat.div_div_eq_div_mul]
      congr 2
      rw [Nat.pow_succ]
      ring
    rw [hb]
    rw [show benc (b / 2) (n + 1) = (2 + (((b / 2) >>> n) &&& 1)) * 4 ^ n + benc (b / 2) n from rfl]
    ring

theorem phiB_zero : phiB 0 = 0 := rfl

theorem phiB_eq {b : Nat} (hb : b ≠ 0) (h32 : b < 2 ^ 32) :
    phiB b = 4 * phiB (b / 2) + 2 + b % 2 := by
  rw [phiB, bitsLen_succ hb h32, benc_succ_eq, phiB]
  ring

theorem phiB_two_le {b : Nat} (hb : b ≠ 0) (h32 : b < 2 ^ 32) : 2 ≤ phiB b := by
  rw [phiB_eq hb h32]
  omega

theorem phiB_inj : ∀ b1, b1 < 2 ^ 32 → ∀ b2, b2 < 2 ^ 32 →
    phiB b1 = phiB b2 → b1 = b2 := by
  intro b1
  induction b1 using Nat.strong_induction_on with
  | _ b1 ih =>
    intro h1 b2 h2 heq
    rcases Nat.eq_zero_or_pos b1 with hz1 | hp1
    · rcases Nat.eq_zero_or_pos b2 with hz2 | hp2
      · omega
      · exfalso
        subst hz1
        rw [phiB_zero] at heq
        have := phiB_two_le (show b2 ≠ 0 by omega) h2
        omega
    · rcases Nat.eq_zero_or_pos b2 with hz2 | hp2
      · exfalso
        subst hz2
        rw [phiB_zero] at heq
        have := phiB_two_le (show b1 ≠ 0 by omega) h1
        omega
      · rw [phiB_eq (show b1 ≠ 0 by omega) h1, phiB_eq (show b2 ≠ 0 by omega) h2] at heq
        have hPeq : phiB (b1 / 2) = phiB (b2 / 2) := by omega
        have hdiv : b1 / 2 = b2 / 2 :=
          ih (b1 / 2) (Nat.div_lt_self hp1 (by norm_num)) (by omega) (b2 / 2)
            (by omega) hPeq
        omega

theorem phiB_bounds : ∀ b, b ≠ 0 → b < 2 ^ 32 →
    2 ^ (2 * bitsLen b - 1) ≤ phiB b ∧ phiB b < 2 ^ (2 * bitsLen b) := by
  intro b
  induction b using Nat.strong_induction_on with
  | _ b ih =>
    intro hb h32
    rcases Nat.lt_or_ge b 2 with hb2 | hb2
    · have hb1 : b = 1 := by omega
      subst hb1
      rw [show phiB 1 = 3 from rfl, show bitsLen 1 = 1 from rfl]
      norm_num
    · have hL : bitsLen b = bitsLen (b / 2) + 1 := bitsLen_succ (by omega) h32
      have hrec := phiB_eq (show b ≠ 0 by omega) h32
      have hI := ih (b / 2) (Nat.div_lt_self (by omega) (by norm_num))
        (by omega) (by omega)
      have hL1 : 1 ≤ bitsLen (b / 2) := bitsLen_pos (by omega) (by omega)
      rw [hrec, hL]
      have e1 : (2 : Nat) ^ (2 * (bitsLen (b / 2) + 1) - 1)
          = 2 ^ (2 * bitsLen (b / 2) - 1) * 4 := by
        rw [show 2 * (bitsLen (b / 2) + 1) - 1 = (2 * bitsLen (b / 2) - 1) + 2 by omega,
          Nat.pow_add]
      have e2 : (2 : Nat) ^ (2 * (bitsLen (b / 2) + 1))
          = 2 ^ (2 * bitsLen (b / 2)) * 4 := by
        rw [show 2 * (bitsLen (b / 2) + 1) = 2 * bitsLen (b / 2) + 2 by omega,
          Nat.pow_add]
      rw [e1, e2]
      omega

theorem phiB_marker : ∀ b, b < 2 ^ 32 → ∀ i, i < bitsLen b →
    phiB b / 2 ^ (2 * i + 1) % 2 = 1 := by
  intro b
  induction b using Nat.strong_induction_on with
  | _ b ih =>
    intro h32 i hi
    have hb : b ≠ 0 := by
      intro h
      rw [h, show bitsLen 0 = 0 from rfl] at hi
      omega
    have hrec := phiB_eq hb h32
    have hL := bitsLen_succ hb h32
    cases i with
    | zero =>
      rw [hrec, show (2 : Nat) ^ (2 * 0 + 1) = 2 by norm_num]
      omega
    | succ j =>
      have hj : j < bitsLen (b / 2) := by omega
      have hIH := ih (b / 2) (Nat.div_lt_self (by omega) (by norm_num))
        (by omega) j hj
      rw [hrec]
      have hsplit : (4 * phiB (b / 2) + 2 + b % 2) / 2 ^ (2 * (j + 1) + 1)
          = phiB (b / 2) / 2 ^ (2 * j + 1) := by
        rw [show 2 * (j + 1) + 1 = 2 + (2 * j + 1) by ring, Nat.pow_add,
          ← Nat.div_div_eq_div_mul]
        congr 1
        rw [show (2 : Nat) ^ 2 = 4 by norm_num]
        omega
      rw [hsplit]
      exact hIH

-- The closed form of phi: the marker interleaving of b, one 0 separator, then
-- the effective bits of a (which, as a block, just denote a itself).
theorem phi_eq_phiB (a b : Nat) (ha : a < 2 ^ 32) :
    ElasticHashing.phi a b = phiB b * 2 ^ (bitsLen a + 1) + a := by
  simp only [ElasticHashing.phi]
  rw [foldB_eq b (bitsLen b) 0, foldA_eq a (bitsLen a) _]
  rw [Nat.or_zero, Nat.shiftLeft_eq]
  rw [Nat.mod_eq_of_lt (lt_two_pow_bitsLen ha)]
  rw [show (0 : Nat) * 4 ^ bitsLen b + benc b (bitsLen b) = phiB b by rw [phiB]; ring]
  ring

theorem mul_pow_add_div (x M a : Nat) (hM : 0 < M) (ha : a < M) :
    (x * M + a) / M = x := by
  rw [add_comm, Nat.add_mul_div_right a x hM, Nat.div_eq_of_lt ha, zero_add]

theorem pow_sandwich {n s t : Nat} (hs : 2 ^ s ≤ n) (hs' : n < 2 ^ (s + 1))
    (ht : 2 ^ t ≤ n) (ht' : n < 2 ^ (t + 1)) : s = t := by
  by_contra hne
  rcases Nat.lt_or_ge s t with h | h
  · have : (2 : Nat) ^ (s + 1) ≤ 2 ^ t := Nat.pow_le_pow_right (by norm_num) (by omega)
    omega
  · have : (2 : Nat) ^ (t + 1) ≤ 2 ^ s := Nat.pow_le_pow_right (by norm_num) (by omega)
    omega

-- The value P * 2 ^ (k + 1) + a (marker block, separator, a-block) lies in the
-- dyadic interval whose exponent is k + 2 * L, where L is the bit length of b.
theorem enc_range (P a k L : Nat) (hL : 1 ≤ L)
    (hl : 2 ^ (2 * L - 1) ≤ P) (hu : P < 2 ^ (2 * L)) (ha : a < 2 ^ k) :
    2 ^ (k + 2 * L) ≤ P * 2 ^ (k + 1) + a ∧
      P * 2 ^ (k + 1) + a < 2 ^ (k + 2 * L + 1) := by
  have e1 : (2 : Nat) ^ (k + 2 * L) = 2 ^ (2 * L - 1) * 2 ^ (k + 1) := by
    rw [← Nat.pow_add]
    congr 1
    omega
  have e2 : (2 : Nat) ^ (k + 2 * L + 1) = 2 ^ (2 * L) * 2 ^ (k + 1) := by
    rw [← Nat.pow_add]
    congr 1
    omega
  have hak : a < 2 ^ (k + 1) :=
    lt_of_lt_of_le ha (Nat.pow_le_pow_right (by norm_num) (by omega))
  constructor
  · calc (2 : Nat) ^ (k + 2 * L) = 2 ^ (2 * L - 1) * 2 ^ (k + 1) := e1
      _ ≤ P * 2 ^ (k + 1) := Nat.mul_le_mul_right _ hl
      _ ≤ P * 2 ^ (k + 1) + a := Nat.le_add_right _ _
  · calc P * 2 ^ (k + 1) + a < P * 2 ^ (k + 1) + 2 ^ (k + 1) := by omega
      _ = (P + 1) * 2 ^ (k + 1) := by ring
      _ ≤ 2 ^ (2 * L) * 2 ^ (k + 1) := Nat.mul_le_mul_right _ (by omega)
      _ = 2 ^ (k + 2 * L + 1) := e2.symm

-- Two different separator positions cannot encode the same value: position k2
-- would have to carry a 0 (the separator of the second encoding) and a 1
-- (a marker bit of the first encoding) at the same time.
theorem no_cross (P1 P2 a1 a2 k1 k2 L1 L2 : Nat)
    (hL1 : 1 ≤ L1) (hL2 : 1 ≤ L2)
    (h1l : 2 ^ (2 * L1 - 1) ≤ P1) (h1u : P1 < 2 ^ (2 * L1))
    (h2l : 2 ^ (2 * L2 - 1) ≤ P2) (h2u : P2 < 2 ^ (2 * L2))
    (ha1 : a1 < 2 ^ k1) (ha2 : a2 < 2 ^ k2)
    (hmark : ∀ i, i < L1 → P1 / 2 ^ (2 * i + 1) % 2 = 1)
    (heq : P1 * 2 ^ (k1 + 1) + a1 = P2 * 2 ^ (k2 + 1) + a2)
    (hlt : k1 < k2) : False := by
  have hr1 := enc_range P1 a1 k1 L1 hL1 h1l h1u ha1
  have hr2 := enc_range P2 a2 k2 L2 hL2 h2l h2u ha2
  rw [heq] at hr1
  have hTT : k1 + 2 * L1 = k2 + 2 * L2 := pow_sandwich hr1.1 hr1.2 hr2.1 hr2.2
  obtain ⟨d, hd1, hdL, hdk⟩ :
      ∃ d, 1 ≤ d ∧ d ≤ L1 - 1 ∧ k2 = k1 + 2 * d := ⟨(k2 - k1) / 2, by omega⟩
  have hsep : (P2 * 2 ^ (k2 + 1) + a2) / 2 ^ k2 % 2 = 0 := by
    have harr : P2 * 2 ^ (k2 + 1) + a2 = (2 * P2) * 2 ^ k2 + a2 := by
      rw [Nat.pow_succ]
      ring
    rw [harr, mul_pow_add_div (2 * P2) (2 ^ k2) a2 (Nat.two_pow_pos k2) ha2]
    omega
  have hmk : (P1 * 2 ^ (k1 + 1) + a1) / 2 ^ k2 % 2 = 1 := by
    have e3 : (2 : Nat) ^ k2 = 2 ^ (k1 + 1) * 2 ^ (2 * (d - 1) + 1) := by
      rw [← Nat.pow_add]
      congr 1
      omega
    rw [e3, ← Nat.div_div_eq_div_mul]
    rw [mul_pow_add_div P1 (2 ^ (k1 + 1)) a1 (Nat.two_pow_pos _)
      (lt_of_lt_of_le ha1 (Nat.pow_le_pow_right (by norm_num) (by omega)))]
    exact hmark (d - 1) (by omega)
  rw [heq] at hmk
  omega

-- phi is injective as soon as both second arguments are nonzero: the marker
-- bits above the separator make the encoding uniquely parseable.
theorem phi_injective_nonzero (a1 b1 a2 b2 : Nat)
    (ha1 : a1 < 2 ^ 32) (hb1 : b1 < 2 ^ 32) (ha2 : a2 < 2 ^ 32) (hb2 : b2 < 2 ^ 32)
    (hz1 : b1 ≠ 0) (hz2 : b2 ≠ 0)
    (heq : ElasticHashing.phi a1 b1 = ElasticHashing.phi a2 b2) :
    a1 = a2 ∧ b1 = b2 := by
  rw [phi_eq_phiB a1 b1 ha1, phi_eq_phiB a2 b2 ha2] at heq
  have hA1 : a1 < 2 ^ bitsLen a1 := lt_two_pow_bitsLen ha1
  have hA2 : a2 < 2 ^ bitsLen a2 := lt_two_pow_bitsLen ha2
  have hB1 := phiB_bounds b1 hz1 hb1
  have hB2 := phiB_bounds b2 hz2 hb2
  have hL1 : 1 ≤ bitsLen b1 := bitsLen_pos hz1 hb1
  have hL2 : 1 ≤ bitsLen b2 := bitsLen_pos hz2 hb2
  have hk : bitsLen a1 = bitsLen a2 := by
    by_contra hne
    rcases Nat.lt_or_ge (bitsLen a1) (bitsLen a2) with h | h
    · exact no_cross (phiB b1) (phiB b2) a1 a2 (bitsLen a1) (bitsLen a2)
        (bitsLen b1) (bitsLen b2) hL1 hL2 hB1.1 hB1.2 hB2.1 hB2.2 hA1 hA2
        (phiB_marker b1 hb1) heq h
    · exact no_cross (phiB b2) (phiB b1) a2 a1 (bitsLen a2) (bitsLen a1)
        (bitsLen b2) (bitsLen b1) hL2 hL1 hB2.1 hB2.2 hB1.1 hB1.2 hA2 hA1
        (phiB_marker b2 hb2) heq.symm (by omega)
  rw [← hk] at heq
  have ha : a1 = a2 := by
    have e1 : (phiB b1 * 2 ^ (bitsLen a1 + 1) + a1) % 2 ^ (bitsLen a1 + 1) = a1 := by
      rw [mul_comm (phiB b1) _, Nat.mul_add_mod]
      exact Nat.mod_eq_of_lt
        (lt_of_lt_of_le hA1 (Nat.pow_le_pow_right (by norm_num) (by omega)))
    have ha2' : a2 < 2 ^ (bitsLen a1 + 1) := by
      rw [hk]
      exact lt_of_lt_of_le hA2 (Nat.pow_le_pow_right (by norm_num) (by omega))
    have e2 : (phiB b2 * 2 ^ (bitsLen a1 + 1) + a2) % 2 ^ (bitsLen a1 + 1) = a2 := by
      rw [mul_comm (phiB b2) _, Nat.mul_add_mod]
      exact Nat.mod_eq_of_lt ha2'
    rw [heq] at e1
    omega
  have hP : phiB b1 = phiB b2 := by
    have hM : 0 < 2 ^ (bitsLen a1 + 1) := Nat.two_pow_pos _
    apply Nat.eq_of_mul_eq_mul_right hM
    omega
  exact ⟨ha, phiB_inj b1 hb1 b2 hb2 hP⟩

-- phi fits comfortably in a u128: the u128 arithmetic in the source cannot
-- wrap, which justifies modelling the result as a plain Nat.
theorem phi_lt_two_pow (a b : Nat) (ha : a < 2 ^ 32) (hb : b < 2 ^ 32) :
    ElasticHashing.phi a b < 2 ^ 128 := by
  rw [phi_eq_phiB a b ha]
  have hLa : bitsLen a ≤ 32 := bitsLenAux_le 32 a
  have hLb : bitsLen b ≤ 32 := bitsLenAux_le 32 b
  have hP : phiB b < 2 ^ 64 := by
    rcases Nat.eq_zero_or_pos b with hz | hp
    · subst hz
      rw [phiB_zero]
      norm_num
    · calc phiB b < 2 ^ (2 * bitsLen b) := (phiB_bounds b (by omega) hb).2
        _ ≤ 2 ^ 64 := Nat.pow_le_pow_right (by norm_num) (by omega)
  have h2 : (2 : Nat) ^ (bitsLen a + 1) ≤ 2 ^ 33 :=
    Nat.pow_le_pow_right (by norm_num) (by omega)
  have hm : phiB b * 2 ^ (bitsLen a + 1) ≤ (2 ^ 64 - 1) * 2 ^ 33 :=
    Nat.mul_le_mul (by omega) h2
  have hfin : ((2 : Nat) ^ 64 - 1) * 2 ^ 33 + 2 ^ 32 < 2 ^ 128 := by norm_num
  omega

/-- C5 (amended, proved): phi is injective on 32-bit pairs whose second
component is nonzero: whenever b1 and b2 are nonzero, phi(a1,b1) = phi(a2,b2)
implies a1 = a2 and b1 = b2.  (The restriction is forced by the counterexample
phi(13,0) = phi(1,1): with b = 0 the marker/separator prefix vanishes.) -/
theorem claim5_phi_injective_on_nonzero_second :
    ∀ a1 b1 a2 b2 : Nat, a1 < 2 ^ 32 → b1 < 2 ^ 32 → a2 < 2 ^ 32 → b2 < 2 ^ 32 →
      b1 ≠ 0 → b2 ≠ 0 →
      ElasticHashing.phi a1 b1 = ElasticHashing.phi a2 b2 →
      a1 = a2 ∧ b1 = b2 :=
  fun a1 b1 a2 b2 ha1 hb1 ha2 hb2 hz1 hz2 heq =>
    phi_injective_nonzero a1 b1 a2 b2 ha1 hb1 ha2 hb2 hz1 hz2 heq

/-- C5 witness: the amended injectivity instantiated at (2,3) and (2,3). -/
theorem claim5_injective_witness : (2 : Nat) = 2 ∧ (3 : Nat) = 3 :=
  claim5_phi_injective_on_nonzero_second 2 3 2 3 (by norm_num) (by norm_num)
    (by norm_num) (by norm_num) (by norm_num) (by norm_num) rfl

/-- C6. phi is order-sensitive: for 32-bit values a and b that are distinct and
both nonzero, phi(a,b) differs from phi(b,a). -/
theorem claim6_phi_order_sensitive :
    ∀ a b : Nat, a < 2 ^ 32 → b < 2 ^ 32 → a ≠ b → a ≠ 0 → b ≠ 0 →
      ElasticHashing.phi a b ≠ ElasticHashing.phi b a := by
  intro a b ha hb hne ha0 hb0 heq
  exact hne (phi_injective_nonzero a b b a ha hb hb ha hb0 ha0 heq).1

/-- C6 witness: phi(1,2) differs from phi(2,1). -/
theorem claim6_order_witness :
    ElasticHashing.phi 1 2 ≠ ElasticHashing.phi 2 1 :=
  claim6_phi_order_sensitive 1 2 (by norm_num) (by norm_num) (by norm_num)
    (by norm_num) (by norm_num)

/-- C10. With second argument 0, no marker bits are emitted and the leading 0
separator vanishes, so phi(a, 0) = a for every 32-bit a. -/
theorem claim10_phi_zero_second :
    ∀ a : Nat, a < 2 ^ 32 → ElasticHashing.phi a 0 = a := by
  intro a ha
  rw [phi_eq_phiB a 0 ha, phiB_zero]
  simp

/-- C10 witness: phi(13, 0) = 13. -/
theorem claim10_phi_zero_witness : ElasticHashing.phi 13 0 = 13 :=
  claim10_phi_zero_second 13 (by norm_num)

-- ---------------------------------------------------------------------------
-- Structure of the bucket layout produced by calc_bucket_size.
-- ---------------------------------------------------------------------------

theorem calcLoop_eq_sizes : ∀ fuel r c data offsets,
    calcLoop fuel r c data offsets =
      (sizesLoop fuel r c).map fun szs =>
        (data ++ zerosOf szs, offsets ++ offsetsFrom data.length szs) := by
  intro fuel
  induction fuel with
  | zero =>
    intro r c data offsets
    cases r with
    | zero => simp [calcLoop, sizesLoop, zerosOf, offsetsFrom]
    | succ r => simp [calcLoop, sizesLoop]
  | succ fuel ih =>
    intro r c data offsets
    cases r with
    | zero => simp [calcLoop, sizesLoop, zerosOf, offsetsFrom]
    | succ r =>
      by_cases hc : c ≤ r + 1
      · have h1 : calcLoop (fuel + 1) (r + 1) c data offsets
            = calcLoop fuel (r + 1 - c) ((c + 1) / 2)
                (data ++ List.replicate c 0) (offsets ++ [data.length + c]) := by
          simp [calcLoop, hc]
        have h2 : sizesLoop (fuel + 1) (r + 1) c
            = (sizesLoop fuel (r + 1 - c) ((c + 1) / 2)).map (c :: ·) := by
          simp [sizesLoop, hc]
        rw [h1, h2, ih]
        cases hs : sizesLoop fuel (r + 1 - c) ((c + 1) / 2) with
        | none => simp
        | some szs =>
          simp [zerosOf, offsetsFrom, List.length_append, List.length_replicate,
            List.append_assoc]
      · simp [calcLoop, sizesLoop, hc]

theorem sizesLoop_facts : ∀ fuel r c szs, 1 ≤ c →
    sizesLoop fuel r c = some szs →
    (∀ x ∈ szs, 1 ≤ x ∧ x ≤ c) ∧ List.Sorted (· ≥ ·) szs ∧ szs.sum = r := by
  intro fuel
  induction fuel with
  | zero =>
    intro r c szs hc h
    cases r with
    | zero =>
      simp [sizesLoop] at h
      subst h
      simp
    | succ r => simp [sizesLoop] at h
  | succ fuel ih =>
    intro r c szs hc h
    cases r with
    | zero =>
      simp [sizesLoop] at h
      subst h
      simp
    | succ r =>
      by_cases hcr : c ≤ r + 1
      · rw [show sizesLoop (fuel + 1) (r + 1) c
            = (sizesLoop fuel (r + 1 - c) ((c + 1) / 2)).map (c :: ·) from by
          simp [sizesLoop, hcr]] at h
        cases hs : sizesLoop fuel (r + 1 - c) ((c + 1) / 2) with
        | none =>
          rw [hs] at h
          simp at h
        | some szs' =>
          rw [hs] at h
          simp at h
          subst h
          have hI := ih (r + 1 - c) ((c + 1) / 2) szs' (by omega) hs
          refine ⟨?_, ?_, ?_⟩
          · intro x hx
            rcases List.mem_cons.mp hx with hx | hx
            · omega
            · have := hI.1 x hx
              omega
          · rw [List.sorted_cons]
            refine ⟨fun y hy => ?_, hI.2.1⟩
            have := (hI.1 y hy).2
            show y ≤ c
            omega
          · have := hI.2.2
            simp [List.sum_cons, this]
            omega
      · simp [sizesLoop, hcr] at h

theorem zerosOf_length : ∀ szs, (zerosOf szs).length = szs.sum := by
  intro szs
  induction szs with
  | nil => rfl
  | cons c rest ih => simp [zerosOf, ih, List.sum_cons]

theorem cons_offsetsFrom_dropLast : ∀ szs base,
    (base :: offsetsFrom base szs).dropLast = partials base szs := by
  intro szs
  induction szs with
  | nil => intro base; rfl
  | cons c rest ih =>
    intro base
    show (base :: (base + c) :: offsetsFrom (base + c) rest).dropLast
        = base :: partials (base + c) rest
    rw [List.dropLast_cons₂, ih]

theorem partials_length : ∀ szs (base : Nat),
    (partials base szs).length = szs.length := by
  intro szs
  induction szs with
  | nil => intro base; rfl
  | cons c rest ih => intro base; simp [partials, ih]

theorem partials_getElem? : ∀ szs (base i : Nat), i < szs.length →
    (partials base szs)[i]? = some (base + (szs.take i).sum) := by
  intro szs
  induction szs with
  | nil => intro base i h; simp at h
  | cons c rest ih =>
    intro base i h
    cases i with
    | zero => simp [partials]
    | succ i =>
      show (base :: partials (base + c) rest)[i + 1]? = _
      rw [List.getElem?_cons_succ, ih (base + c) i (by simpa using h)]
      simp [List.take_succ_cons, List.sum_cons]
      omega

theorem take_sum_le (szs : List Nat) (k : Nat) : (szs.take k).sum ≤ szs.sum := by
  conv_rhs => rw [← List.take_append_drop k szs]
  rw [List.sum_append]
  omega

theorem take_sum_succ (szs : List Nat) (i v : Nat) (h : szs[i]? = some v) :
    (szs.take (i + 1)).sum = (szs.take i).sum + v := by
  rw [List.take_succ, List.sum_append, h]
  simp

theorem get_bucket_mut_eq (t : ElasticHashing) (i : Nat) :
    t.get_bucket_mut i = t.get_bucket i := rfl

theorem get_bucket_out_of_range (t : ElasticHashing) (i : Nat)
    (h : t.bucket_offsets.length ≤ i) : t.get_bucket i = some [] := by
  unfold ElasticHashing.get_bucket
  rw [if_pos h]

theorem get_bucket_of_layout (t : ElasticHashing) (szs : List Nat) (i v : Nat)
    (hdata : t.data = zerosOf szs) (hoff : t.bucket_offsets = partials 0 szs)
    (hv : szs[i]? = some v) :
    t.get_bucket i
      = some (((zerosOf szs).take ((szs.take (i + 1)).sum)).drop
          ((szs.take i).sum)) ∧
    ((t.get_bucket i).getD []).length = v := by
  have hi : i < szs.length := by
    rcases List.getElem?_eq_some.mp hv with ⟨hh, _⟩
    exact hh
  have hlen : t.bucket_offsets.length = szs.length := by
    rw [hoff, partials_length]
  have hstart : t.bucket_offsets[i]? = some ((szs.take i).sum) := by
    rw [hoff, partials_getElem? szs 0 i hi, zero_add]
  have hstop : (if i + 1 < t.bucket_offsets.length then t.bucket_offsets[i + 1]?
      else some t.data.length) = some ((szs.take (i + 1)).sum) := by
    rw [hoff, hdata, partials_length, zerosOf_length]
    by_cases h2 : i + 1 < szs.length
    · rw [if_pos h2, partials_getElem? szs 0 (i + 1) h2, zero_add]
    · rw [if_neg h2]
      have he : i + 1 = szs.length := by omega
      rw [he, List.take_length]
  have hsucc : (szs.take (i + 1)).sum = (szs.take i).sum + v :=
    take_sum_succ szs i v hv
  have hslice : listSlice t.data ((szs.take i).sum) ((szs.take (i + 1)).sum)
      = some (((zerosOf szs).take ((szs.take (i + 1)).sum)).drop
          ((szs.take i).sum)) := by
    rw [hdata]
    unfold listSlice
    rw [if_pos ⟨by omega, by rw [zerosOf_length]; exact take_sum_le szs (i + 1)⟩]
  have hmain : t.get_bucket i
      = some (((zerosOf szs).take ((szs.take (i + 1)).sum)).drop
          ((szs.take i).sum)) := by
    unfold ElasticHashing.get_bucket
    rw [if_neg (by omega : ¬ t.bucket_offsets.length ≤ i)]
    rw [hstart, Option.some_bind, hstop, Option.some_bind, hslice]
  refine ⟨hmain, ?_⟩
  rw [hmain, Option.getD_some, List.length_drop, List.length_take, zerosOf_length]
  have := take_sum_le szs (i + 1)
  omega

theorem bucketCaps_eq (t : ElasticHashing) (szs : List Nat)
    (hdata : t.data = zerosOf szs) (hoff : t.bucket_offsets = partials 0 szs) :
    t.bucketCaps = szs := by
  unfold ElasticHashing.bucketCaps ElasticHashing.bucket_count
  rw [hoff, partials_length]
  apply List.ext_getElem
  · simp
  · intro n h1 h2
    rw [List.getElem_map, List.getElem_range]
    exact (get_bucket_of_layout t szs n szs[n] hdata hoff
      (List.getElem?_eq_getElem h2)).2

theorem sorted_ge_le_head (l : List Nat) (hne : l ≠ [])
    (hs : List.Sorted (· ≥ ·) l) : ∀ x ∈ l, x ≤ l.head hne := by
  cases l with
  | nil => simp at hne
  | cons a rest =>
    intro x hx
    rcases List.mem_cons.mp hx with hx | hx
    · subst hx
      simp [List.head_cons]
    · have := (List.sorted_cons.mp hs).1 x hx
      simpa [List.head_cons] using this

theorem sorted_ge_getLast_le : ∀ (l : List Nat) (hne : l ≠ []),
    List.Sorted (· ≥ ·) l → ∀ x ∈ l, l.getLast hne ≤ x := by
  intro l
  induction l with
  | nil => intro hne; simp at hne
  | cons a rest ih =>
    intro hne hs x hx
    by_cases hr : rest = []
    · subst hr
      have hxa : x = a := by simpa using hx
      subst hxa
      simp
    · rw [List.getLast_cons hr]
      rcases List.mem_cons.mp hx with hx | hx
      · subst hx
        exact (List.sorted_cons.mp hs).1 _ (List.getLast_mem hr)
      · exact ih hr (List.sorted_cons.mp hs).2 x hx

theorem new_ok_structure (N : Nat) (t : ElasticHashing)
    (h : ElasticHashing.new N = Except.ok t) :
    1 ≤ N ∧ ∃ szs, sizesLoop N N ((N + 1) / 2) = some szs ∧
      t.data = zerosOf szs ∧ t.bucket_offsets = partials 0 szs := by
  by_cases hN : N = 0
  · subst hN
    exact absurd h (by simp [ElasticHashing.new])
  · have hcalc : ElasticHashing.calc_bucket_size N
        = (sizesLoop N N ((N + 1) / 2)).map
            (fun szs => (zerosOf szs, partials 0 szs)) := by
      unfold ElasticHashing.calc_bucket_size
      rw [calcLoop_eq_sizes]
      cases hs : sizesLoop N N ((N + 1) / 2) with
      | none => simp
      | some szs =>
        simp only [Option.map_some', List.nil_append, List.length_nil,
          List.singleton_append]
        rw [cons_offsetsFrom_dropLast szs 0]
    refine ⟨by omega, ?_⟩
    unfold ElasticHashing.new at h
    rw [if_neg hN, hcalc] at h
    cases hs : sizesLoop N N ((N + 1) / 2) with
    | none =>
      rw [hs] at h
      exact absurd h (by simp)
    | some szs =>
      rw [hs] at h
      simp only [Option.map_some'] at h
      simp only [Except.ok.injEq] at h
      refine ⟨szs, rfl, ?_, ?_⟩
      · rw [← h]
      · rw [← h]

/-- C7. For every successfully constructed table the sequence of bucket
capacities is non-increasing and positive; bucket 0 is the largest and the
last bucket is the minimum positive size. -/
theorem claim7_bucket_caps_monotone (N : Nat) (t : ElasticHashing)
    (h : ElasticHashing.new N = Except.ok t) :
    ∃ hne : t.bucketCaps ≠ [],
      List.Sorted (· ≥ ·) t.bucketCaps ∧
      (∀ x ∈ t.bucketCaps, 0 < x) ∧
      (∀ x ∈ t.bucketCaps, x ≤ t.bucketCaps.head hne) ∧
      (∀ x ∈ t.bucketCaps, t.bucketCaps.getLast hne ≤ x) := by
  obtain ⟨hN, szs, hs, hdata, hoff⟩ := new_ok_structure N t h
  have hfacts := sizesLoop_facts N N ((N + 1) / 2) szs (by omega) hs
  have hcaps : t.bucketCaps = szs := bucketCaps_eq t szs hdata hoff
  have hsum := hfacts.2.2
  have hsorted : List.Sorted (· ≥ ·) t.bucketCaps := by
    rw [hcaps]
    exact hfacts.2.1
  have hne : t.bucketCaps ≠ [] := by
    rw [hcaps]
    intro hnil
    rw [hnil] at hsum
    simp at hsum
    omega
  refine ⟨hne, hsorted, ?_, ?_, ?_⟩
  · intro x hx
    rw [hcaps] at hx
    have := hfacts.1 x hx
    omega
  · exact sorted_ge_le_head _ hne hsorted
  · exact sorted_ge_getLast_le _ hne hsorted

/-- C7 witness: the table of capacity 10 (buckets [5, 3, 2]). -/
theorem claim7_monotone_witness :
    ∃ hne : (ElasticHashing.mk 10 (List.replicate 10 0)
        [0, 5, 8]).bucketCaps ≠ [],
      List.Sorted (· ≥ ·) (ElasticHashing.mk 10 (List.replicate 10 0)
        [0, 5, 8]).bucketCaps ∧
      (∀ x ∈ (ElasticHashing.mk 10 (List.replicate 10 0)
        [0, 5, 8]).bucketCaps, 0 < x) ∧
      (∀ x ∈ (ElasticHashing.mk 10 (List.replicate 10 0)
        [0, 5, 8]).bucketCaps, x ≤ (ElasticHashing.mk 10 (List.replicate 10 0)
        [0, 5, 8]).bucketCaps.head hne) ∧
      (∀ x ∈ (ElasticHashing.mk 10 (List.replicate 10 0)
        [0, 5, 8]).bucketCaps, (ElasticHashing.mk 10 (List.replicate 10 0)
        [0, 5, 8]).bucketCaps.getLast hne ≤ x) :=
  claim7_bucket_caps_monotone 10
    (ElasticHashing.mk 10 (List.replicate 10 0) [0, 5, 8]) rfl

/-- C9. For every constructed table both bucket view accessors return normally
on every index (no panic); indices at or beyond bucket_count yield the empty
slice, and for in-range indices the computed slice bounds lie within the
backing array. -/
theorem claim9_get_bucket_total (N : Nat) (t : ElasticHashing)
    (h : ElasticHashing.new N = Except.ok t) (i : Nat) :
    ∃ l, t.get_bucket i = some l ∧ t.get_bucket_mut i = some l ∧
      (t.bucket_count ≤ i → l = []) ∧
      (i < t.bucket_count → ∃ start stop, start ≤ stop ∧
        stop ≤ t.data.length ∧ t.bucket_offsets[i]? = some start ∧
        l = (t.data.take stop).drop start) := by
  obtain ⟨hN, szs, hs, hdata, hoff⟩ := new_ok_structure N t h
  have hcount : t.bucket_count = szs.length := by
    unfold ElasticHashing.bucket_count
    rw [hoff, partials_length]
  by_cases hi : szs.length ≤ i
  · have hout : t.get_bucket i = some [] :=
      get_bucket_out_of_range t i (by rw [hoff, partials_length]; exact hi)
    refine ⟨[], hout, ?_, fun _ => rfl, fun hlt => absurd hlt (by omega)⟩
    rw [get_bucket_mut_eq]
    exact hout
  · have hi' : i < szs.length := by omega
    have hv : szs[i]? = some szs[i] := List.getElem?_eq_getElem hi'
    obtain ⟨hmain, hlen⟩ := get_bucket_of_layout t szs i szs[i] hdata hoff hv
    refine ⟨_, hmain, ?_, fun hc => absurd hc (by omega), fun _ => ?_⟩
    · rw [get_bucket_mut_eq]
      exact hmain
    · refine ⟨(szs.take i).sum, (szs.take (i + 1)).sum, ?_, ?_, ?_, ?_⟩
      · rw [take_sum_succ szs i _ hv]
        omega
      · rw [hdata, zerosOf_length]
        exact take_sum_le szs (i + 1)
      · rw [hoff, partials_getElem? szs 0 i hi', zero_add]
      · rw [hdata]

/-- C9 witness: the capacity-10 table at the out-of-range index 3. -/
theorem claim9_get_bucket_witness :
    ∃ l, (ElasticHashing.mk 10 (List.replicate 10 0)
        [0, 5, 8]).get_bucket 3 = some l ∧
      (ElasticHashing.mk 10 (List.replicate 10 0)
        [0, 5, 8]).get_bucket_mut 3 = some l ∧
      ((ElasticHashing.mk 10 (List.replicate 10 0)
        [0, 5, 8]).bucket_count ≤ 3 → l = []) ∧
      (3 < (ElasticHashing.mk 10 (List.replicate 10 0)
        [0, 5, 8]).bucket_count → ∃ start stop, start ≤ stop ∧
        stop ≤ (ElasticHashing.mk 10 (List.replicate 10 0)
          [0, 5, 8]).data.length ∧
        (ElasticHashing.mk 10 (List.replicate 10 0)
          [0, 5, 8]).bucket_offsets[3]? = some start ∧
        l = ((ElasticHashing.mk 10 (List.replicate 10 0)
          [0, 5, 8]).data.take stop).drop start) :=
  claim9_get_bucket_total 10
    (ElasticHashing.mk 10 (List.replicate 10 0) [0, 5, 8]) rfl 3
